import Mathlib

/-!
Verification of the constraint-filtering core of the `wordle_warlord` solver.

Words are modelled as `List Char` (Rust `&str` / `String` over its characters)
and the per-letter occurrence maps (`HashMap<char, i32>` in the source) as
total functions `Char → Nat` where an absent key is the value `0`.  The counts
never go below zero in any reachable execution of the source (proved below for
the one unguarded decrement), so truncated `Nat` subtraction agrees with the
source's integer arithmetic.
-/

/-- Embedding of `Feedback` from `src/solver.rs`: Green = Exact, Yellow = Displaced,
Gray = Absent. -/
inductive Feedback where
  | Green
  | Yellow
  | Gray
deriving DecidableEq, Repr

/-- Decrement the stored count of `c` by one (`*counts.get_mut(&c) -= 1`). -/
def decr (f : Char → Nat) (c : Char) : Char → Nat :=
  fun x => if x = c then f x - 1 else f x

/-- First pass of `matches` (`src/solver.rs` lines 107–115): every position
marked Green must have the candidate letter equal to the guessed letter; the
count of that letter is decremented.  The list holds one
`(candidate letter, guess letter, feedback)` triple per position.  `none`
models the early `return false`. -/
def greenPass : List (Char × Char × Feedback) → (Char → Nat) → Option (Char → Nat)
  | [], counts => some counts
  | (wc, gc, fb) :: rest, counts =>
    if fb = Feedback.Green then
      if wc ≠ gc then none
      else greenPass rest (decr counts gc)
    else greenPass rest counts

/-- Second pass of `matches` (lines 117–129): every position marked Yellow must
have a differing candidate letter and a strictly positive remaining count of
the guessed letter, which is then decremented. -/
def yellowPass : List (Char × Char × Feedback) → (Char → Nat) → Option (Char → Nat)
  | [], counts => some counts
  | (wc, gc, fb) :: rest, counts =>
    if fb = Feedback.Yellow then
      if wc = gc then none
      else if counts gc > 0 then yellowPass rest (decr counts gc)
      else none
    else yellowPass rest counts

/-- Third pass of `matches` (lines 131–136): every position marked Gray must
have no remaining count of the guessed letter. -/
def grayPass : List (Char × Char × Feedback) → (Char → Nat) → Bool
  | [], _ => true
  | (_, gc, fb) :: rest, counts =>
    if fb = Feedback.Gray ∧ counts gc > 0 then false
    else grayPass rest counts

/-- Embedding of `matches` from `src/solver.rs` lines 93–139 (named `matchesWord` because
`matches` is reserved in Lean).  Returns `false` on any length mismatch, then
runs the three passes starting from the candidate's letter multiset. -/
def matchesWord (word guess : List Char) (pattern : List Feedback) : Bool :=
  if word.length = guess.length ∧ guess.length = pattern.length then
    let counts : Char → Nat := fun c => word.count c
    let ts := word.zip (guess.zip pattern)
    match greenPass ts counts with
    | none => false
    | some c1 =>
      match yellowPass ts c1 with
      | none => false
      | some c2 => grayPass ts c2
  else false

/-- Embedding of `filter_words` from `src/solver.rs` lines 141–147: keep the words of the
guess's length that satisfy `matches`. -/
def filter_words (words : List (List Char)) (guess : List Char)
    (pattern : List Feedback) : List (List Char) :=
  (words.filter fun w => w.length == guess.length).filter
    fun w => matchesWord w guess pattern

/-- Green marking pass of `generate_feedback` (lines 160–166): over the
`(target letter, guess letter)` pairs, mark Green where they coincide and
decrement the target-letter pool; other positions keep the initial Gray. -/
def genGreens : List (Char × Char) → (Char → Nat) → List Feedback × (Char → Nat)
  | [], counts => ([], counts)
  | (tc, gc) :: rest, counts =>
    if gc = tc then
      let r := genGreens rest (decr counts gc)
      (Feedback.Green :: r.1, r.2)
    else
      let r := genGreens rest counts
      (Feedback.Gray :: r.1, r.2)

/-- Yellow marking pass of `generate_feedback` (lines 168–180): skip Green
positions; where the guessed letter still has remaining pool count, mark
Yellow and decrement, otherwise leave the mark unchanged.  The final pool is
returned as well (the source mutates it in place). -/
def genYellows : List (Char × Char) → List Feedback → (Char → Nat) →
    List Feedback × (Char → Nat)
  | _, [], counts => ([], counts)
  | [], _ :: _, counts => ([], counts)
  | (_, gc) :: rest, fb :: fbs, counts =>
    if fb = Feedback.Green then
      let r := genYellows rest fbs counts
      (fb :: r.1, r.2)
    else if counts gc > 0 then
      let r := genYellows rest fbs (decr counts gc)
      (Feedback.Yellow :: r.1, r.2)
    else
      let r := genYellows rest fbs counts
      (fb :: r.1, r.2)

/-- Embedding of `generate_feedback` from `src/solver.rs` lines 149–183, for the regime
where the guess is no longer than the target (the source indexes the target at
every guess position; in the program both always have equal length). -/
def generate_feedback (target guess : List Char) : List Feedback :=
  let counts : Char → Nat := fun c => target.count c
  let ps := target.zip guess
  let g1 := genGreens ps counts
  (genYellows ps g1.1 g1.2).1

/-- Pair every `(candidate letter, guess letter)` with the feedback at the same
position, giving the triples the three `matches` passes walk. -/
def attach3 (ps : List (Char × Char)) (pat : List Feedback) :
    List (Char × Char × Feedback) :=
  ps.zipWith (fun p fb => (p.1, p.2, fb)) pat

/-- The mark the green pass of `generate_feedback` gives a position. -/
def greenMark (p : Char × Char) : Feedback :=
  if p.2 = p.1 then Feedback.Green else Feedback.Gray

/-- Embedding of `Guess` from `src/solver.rs` lines 25–35: an owned word plus its feedback
sequence. -/
structure Guess where
  word : List Char
  feedback : List Feedback
deriving DecidableEq

/-- Embedding of `SolverState` from `src/solver.rs` lines 37–41: the session word length
plus the ordered guess history (most recent last, as in the `Vec`). -/
structure SolverState where
  word_len : Nat
  guesses : List Guess
deriving DecidableEq

/-- Embedding of `SolverState::add_guess` (lines 63–68).  The two `assert_eq!` length
checks are modelled by returning `none` (the panic) when violated; on success
the guess is pushed at the end of the history. -/
def SolverState.add_guess (s : SolverState) (g : Guess) : Option SolverState :=
  if g.word.length = s.word_len ∧ g.feedback.length = s.word_len then
    some { s with guesses := s.guesses ++ [g] }
  else none

/-- Embedding of `SolverState::pop_guess` (lines 59–61): drop the most recent guess; a
no-op on an empty history (`Vec::pop` on empty). -/
def SolverState.pop_guess (s : SolverState) : SolverState :=
  { s with guesses := s.guesses.dropLast }

/-- Embedding of `SolverState::filter` (lines 70–80): keep the dictionary words of the
session length that satisfy `matches` against every stored guess. -/
def SolverState.filter (s : SolverState) (words : List (List Char)) :
    List (List Char) :=
  (words.filter fun w => w.length == s.word_len).filter
    fun w => s.guesses.all fun g => matchesWord w g.word g.feedback

/-- A concrete guess, state and dictionary for witnesses, taken from the
`test_solver_state_multiple_guesses_compound` test of `src/solver.rs`. -/
def demoGuess : Guess :=
  Guess.mk "daisy".toList
    [Feedback.Green, Feedback.Gray, Feedback.Gray, Feedback.Yellow,
      Feedback.Green]

def demoState : SolverState := SolverState.mk 5 []

def demoWords : List (List Char) :=
  ["dusky".toList, "dusty".toList, "dumpy".toList, "daisy".toList]

/-- Embedding of `Feedback::try_from` from `src/solver.rs` lines 12–23.  `Char.toUpper` is
exactly Rust's `char::to_ascii_uppercase` (it maps code points 97–122 down by
32 and leaves everything else unchanged). -/
def Feedback.tryFrom (value : Char) : Except Char Feedback :=
  match value.toUpper with
  | 'G' => Except.ok Feedback.Green
  | 'Y' => Except.ok Feedback.Yellow
  | 'X' => Except.ok Feedback.Gray
  | _ => Except.error value

/-- Embedding of `parse_pattern` from `src/solver.rs` lines 83–91: convert every character,
short-circuiting on the first failure (`collect` over `Result`); the error
carries the offending character. -/
def parse_pattern : List Char → Except Char (List Feedback)
  | [] => Except.ok []
  | c :: rest =>
    match Feedback.tryFrom c with
    | Except.error b => Except.error b
    | Except.ok f =>
      match parse_pattern rest with
      | Except.error b => Except.error b
      | Except.ok fs => Except.ok (f :: fs)

/-- A character the pattern parser accepts, per the spec: G, Y or X in either
case. -/
def recognizedChar (c : Char) : Bool :=
  c == 'G' || c == 'g' || c == 'Y' || c == 'y' || c == 'X' || c == 'x'

/-- The symbol the spec assigns to a recognized character: G maps to Exact,
Y to Displaced, X to Absent, case-insensitively. -/
def symbolOf (c : Char) : Feedback :=
  if c == 'G' || c == 'g' then Feedback.Green
  else if c == 'Y' || c == 'y' then Feedback.Yellow
  else Feedback.Gray

/-- Increment the stored count of `c` by one (`*map.entry(c).or_insert(0) += 1`). -/
def incr (f : Char → Nat) (c : Char) : Char → Nat :=
  fun x => if x = c then f x + 1 else f x

/-- The `freq` map of `score_and_sort` (`src/scoring.rs` lines 4–10): the two
nested loops add one per character occurrence of every candidate, so a letter's
entry is its total number of occurrences across all candidates. -/
def buildFreq (words : List (List Char)) : Char → Nat :=
  words.foldl (fun f w => w.foldl (fun f' c => incr f' c) f) (fun _ => 0)

/-- Embedding of `score_and_sort` from `src/scoring.rs` lines 3–31: each candidate's score
sums `freq` over its distinct letters (`unique`, a `HashSet`; summation order
is irrelevant, so the set is modelled by `eraseDups`) plus `SOLUTION_BONUS`
(10) for members of `solutions`; the result is stably sorted descending by
score (`sort_by(|a, b| b.1.cmp(&a.1))`, modelled by `mergeSort`). -/
def score_and_sort (words : List (List Char)) (solutions : List (List Char)) :
    List (List Char × Nat) :=
  let freq := buildFreq words
  let scored := words.map fun w =>
    (w, (w.eraseDups.map freq).sum + if w ∈ solutions then 10 else 0)
  scored.mergeSort fun a b => b.2 ≤ a.2

/-- The claim's per-letter coverage count: the number of distinct candidates
containing the letter at least once. -/
def coverageCount (words : List (List Char)) (c : Char) : Nat :=
  words.countP fun w => decide (c ∈ w)

/-- The score C2 claims `score_and_sort` assigns: coverage counts summed over
the candidate's distinct letters, plus 10 for plausible solutions. -/
def claimScore (words solutions : List (List Char)) (w : List Char) : Nat :=
  (w.eraseDups.map (coverageCount words)).sum + if w ∈ solutions then 10 else 0

/-- The letter weight the code actually uses: total occurrences of the letter
across all candidates, counted with multiplicity. -/
def totalOccurrences (words : List (List Char)) (c : Char) : Nat :=
  (words.map fun w => w.count c).sum

/-- The score `score_and_sort` actually assigns (C2 amended). -/
def amendedScore (words solutions : List (List Char)) (w : List Char) : Nat :=
  (w.eraseDups.map (totalOccurrences words)).sum + if w ∈ solutions then 10 else 0

/-- Embedding of `SolutionPoolStats` from `src/analysis.rs` lines 27–32.  The `f64` fields
are modelled as real numbers. -/
structure SolutionPoolStats where
  total_remaining : Nat
  eliminated_percentage : ℝ
  entropy : ℝ

/-- Embedding of `compute_solution_pool_stats` from `src/analysis.rs` lines 158–198.  The
`letter_counts` map holds, for each letter occurring in some remaining word,
the number of remaining words containing it (the per-word `seen` set admits
one increment per word); summing over the map's values is summing over the
distinct letters of the pool, modelled by `flatten.eraseDups`. -/
noncomputable def compute_solution_pool_stats (all_words : List (List Char))
    (filtered : List (List Char)) : SolutionPoolStats :=
  let total_remaining := filtered.length
  let eliminated_percentage : ℝ :=
    if all_words.isEmpty then 0
    else (1 - (total_remaining : ℝ) / (all_words.length : ℝ)) * 100
  let entropy : ℝ :=
    if total_remaining ≤ 1 then 0
    else
      List.sum <| (filtered.flatten.eraseDups).map fun c =>
        let cnt : Nat := filtered.countP fun w => decide (c ∈ w)
        let p : ℝ := (cnt : ℝ) / (total_remaining : ℝ);
        -(p * Real.logb 2 p)
  SolutionPoolStats.mk total_remaining eliminated_percentage entropy

/-- Embedding of `ConstraintSummary` from `src/analysis.rs` lines 18–25.  The `grays`
`HashSet` (its `Vec` rendering has nondeterministic order) is modelled by its
characteristic function, and the two `HashMap`s by total functions, `none`
standing for an absent `max_counts` key and `0` for an absent `min_counts`
key (an entry is only ever created with a positive value). -/
structure ConstraintSummary where
  greens : List (Char × Nat × List Char)
  yellows : List (Char × List Nat × List Char)
  grays : Char → Bool
  min_counts : Char → Nat
  max_counts : Char → Option Nat

/-- The Yellow arm of the per-position loop (`src/analysis.rs` lines 116–124):
append the position to the existing entry for this letter, else push a new
entry recording the current guess word. -/
def addYellow (ys : List (Char × List Nat × List Char)) (c : Char) (pos : Nat)
    (word : List Char) : List (Char × List Nat × List Char) :=
  if ys.any fun y => y.1 == c then
    ys.map fun y => if y.1 == c then (y.1, y.2.1 ++ [pos], y.2.2) else y
  else ys ++ [(c, [pos], word)]

/-- The per-position loop of `compute_constraint_summary` (`src/analysis.rs`
lines 110–127) over one guess: builds `greens`, `yellows` and the per-guess
Green+Yellow counter `gy_counts`. -/
def guessLoop : List (Char × Feedback) → Nat → List Char →
    List (Char × Nat × List Char) → List (Char × List Nat × List Char) →
    (Char → Nat) →
    List (Char × Nat × List Char) × List (Char × List Nat × List Char) ×
      (Char → Nat)
  | [], _, _, gr, ye, gy => (gr, ye, gy)
  | (c, fb) :: rest, pos, word, gr, ye, gy =>
    match fb with
    | Feedback.Green =>
      guessLoop rest (pos + 1) word (gr ++ [(c, pos, word)]) ye (incr gy c)
    | Feedback.Yellow =>
      guessLoop rest (pos + 1) word gr (addYellow ye c pos word) (incr gy c)
    | Feedback.Gray => guessLoop rest (pos + 1) word gr ye gy

/-- One iteration of the outer guess loop of `compute_constraint_summary`
(`src/analysis.rs` lines 100–147): run the position loop with a fresh
`gy_counts`, then raise each `min_counts` entry to the per-guess Green+Yellow
count (`max`), and for each letter of the guess word with some Absent
occurrence (total occurrences exceed the Green+Yellow count) mark it gray and
lower `max_counts` to the Green+Yellow count (`min`). -/
def processGuess (acc : ConstraintSummary) (g : Guess) : ConstraintSummary :=
  let chars := g.word
  let r := guessLoop (chars.zip g.feedback) 0 g.word acc.greens acc.yellows
    (fun _ => 0)
  let gy := r.2.2
  let total_counts : Char → Nat := fun c => chars.count c
  { greens := r.1
    yellows := r.2.1
    grays := fun c =>
      acc.grays c || (decide (c ∈ chars) && decide (gy c < total_counts c))
    min_counts := fun c => max (acc.min_counts c) (gy c)
    max_counts := fun c =>
      if c ∈ chars ∧ gy c < total_counts c then
        some (match acc.max_counts c with
          | none => gy c
          | some m => min m (gy c))
      else acc.max_counts c }

/-- Embedding of `compute_constraint_summary` from `src/analysis.rs` lines 92–156. -/
def compute_constraint_summary (solver : SolverState) : ConstraintSummary :=
  solver.guesses.foldl processGuess
    { greens := []
      yellows := []
      grays := fun _ => false
      min_counts := fun _ => 0
      max_counts := fun _ => none }

/-- The Exact-plus-Displaced occurrence count of letter `c` within a single
guess. -/
def gyCount (g : Guess) (c : Char) : Nat :=
  (g.word.zip g.feedback).countP fun t =>
    decide (t.1 = c) && decide (t.2 ≠ Feedback.Gray)

/-- Number of Green positions of the triple list whose guessed letter is `c`. -/
def greensOf (ts : List (Char × Char × Feedback)) (c : Char) : Nat :=
  ts.countP fun t => decide (t.2.2 = Feedback.Green) && decide (t.2.1 = c)

/-- Number of Yellow positions of the triple list whose guessed letter is `c`. -/
def yellowsOf (ts : List (Char × Char × Feedback)) (c : Char) : Nat :=
  ts.countP fun t => decide (t.2.2 = Feedback.Yellow) && decide (t.2.1 = c)

/-- The minimum-required-occurrence count the spec accumulates for letter `c`
from the Exact and Displaced marks of a single guess. -/
def reqCount (g : List Char) (p : List Feedback) (c : Char) : Nat :=
  (g.zip p).countP fun q => decide (q.1 = c) && decide (q.2 ≠ Feedback.Gray)

/-- The three conditions C3 states for `matches`, read off the claim: Exact
positions agree; Displaced positions differ but the letter occurs somewhere in
the candidate; letters with an Absent mark occur at most their accumulated
Exact+Displaced count. -/
def claimMatches (w g : List Char) (p : List Feedback) : Prop :=
  (∀ t ∈ w.zip (g.zip p), t.2.2 = Feedback.Green → t.1 = t.2.1) ∧
  (∀ t ∈ w.zip (g.zip p), t.2.2 = Feedback.Yellow →
    t.1 ≠ t.2.1 ∧ t.2.1 ∈ w) ∧
  (∀ q ∈ g.zip p, q.2 = Feedback.Gray → w.count q.1 ≤ reqCount g p q.1)

/-- Result of a Rust execution that can panic: `crash` models a panic, `fail`
an early `return false`, `ok` a normal return. -/
inductive MatchResult (α : Type) where
  | crash : MatchResult α
  | fail : MatchResult α
  | ok : α → MatchResult α
deriving DecidableEq

/-- The first pass of `matches` with its one unguarded operation made
explicit: `*counts.get_mut(&g[i]).unwrap() -= 1` would panic on an absent key
(modelled as count 0) and would underflow on a stored 0 (a panic in debug
builds, a silent wrap otherwise), so both are mapped to `crash`.  The second
and third passes only touch counts behind `> 0` guards and cannot panic. -/
def greenPassChecked : List (Char × Char × Feedback) → (Char → Nat) →
    MatchResult (Char → Nat)
  | [], counts => MatchResult.ok counts
  | (wc, gc, fb) :: rest, counts =>
    if fb = Feedback.Green then
      if wc ≠ gc then MatchResult.fail
      else if counts gc = 0 then MatchResult.crash
      else greenPassChecked rest (decr counts gc)
    else greenPassChecked rest counts

/-- Embedding of `matches` with panics made explicit: identical to `matchesWord` except
that the green pass reports a `crash` where the source could panic. -/
def matchesChecked (word guess : List Char) (pattern : List Feedback) :
    MatchResult Bool :=
  if word.length = guess.length ∧ guess.length = pattern.length then
    let counts : Char → Nat := fun c => word.count c
    let ts := word.zip (guess.zip pattern)
    match greenPassChecked ts counts with
    | MatchResult.crash => MatchResult.crash
    | MatchResult.fail => MatchResult.ok false
    | MatchResult.ok c1 =>
      match yellowPass ts c1 with
      | none => MatchResult.ok false
      | some c2 => MatchResult.ok (grayPass ts c2)
  else MatchResult.ok false

lemma zip_zip_eq_attach3 (t g : List Char) (p : List Feedback) :
    t.zip (g.zip p) = attach3 (t.zip g) p := by
  induction t generalizing g p with
  | nil => simp [attach3]
  | cons tc t' ih =>
    cases g with
    | nil => simp [attach3]
    | cons gc g' =>
      cases p with
      | nil => simp [attach3]
      | cons fb p' =>
        simp [attach3, List.zip_cons_cons, List.zipWith] at ih ⊢
        exact ih g' p'

lemma genGreens_fst (ps : List (Char × Char)) (counts : Char → Nat) :
    (genGreens ps counts).1 = ps.map greenMark := by
  induction ps generalizing counts with
  | nil => simp [genGreens]
  | cons p rest ih =>
    obtain ⟨tc, gc⟩ := p
    by_cases hp : gc = tc <;> simp [genGreens, greenMark, hp, ih]

lemma genYellows_fst_length (ps : List (Char × Char)) (pat : List Feedback)
    (counts : Char → Nat) (h : pat.length = ps.length) :
    (genYellows ps pat counts).1.length = ps.length := by
  induction ps generalizing pat counts with
  | nil =>
    cases pat with
    | nil => simp [genYellows]
    | cons fb fbs => simp at h
  | cons p rest ih =>
    obtain ⟨tc, gc⟩ := p
    cases pat with
    | nil => simp at h
    | cons fb fbs =>
      simp only [List.length_cons, Nat.succ.injEq] at h
      by_cases hg : fb = Feedback.Green
      · simp [genYellows, hg, ih fbs counts h]
      · by_cases hc : counts gc > 0
        · simp [genYellows, hg, hc, ih fbs (decr counts gc) h]
        · simp [genYellows, hg, hc, ih fbs counts h]

lemma genYellows_snd_le (ps : List (Char × Char)) (pat : List Feedback)
    (counts : Char → Nat) (c : Char) :
    (genYellows ps pat counts).2 c ≤ counts c := by
  induction ps generalizing pat counts with
  | nil =>
    cases pat with
    | nil => simp [genYellows]
    | cons fb fbs => simp [genYellows]
  | cons p rest ih =>
    obtain ⟨tc, gc⟩ := p
    cases pat with
    | nil => simp [genYellows]
    | cons fb fbs =>
      by_cases hg : fb = Feedback.Green
      · simpa [genYellows, hg] using ih fbs counts
      · by_cases hc : counts gc > 0
        · have := ih fbs (decr counts gc)
          have hd : decr counts gc c ≤ counts c := by
            by_cases hx : c = gc
            · simp only [decr, if_pos hx]; omega
            · simp [decr, hx]
          simp only [genYellows, hg, hc, if_neg, if_pos, if_true]
          calc (genYellows rest fbs (decr counts gc)).2 c ≤ decr counts gc c := this
            _ ≤ counts c := hd
        · simpa [genYellows, hg, hc] using ih fbs counts

lemma yellowPass_genYellows (ps : List (Char × Char)) (counts : Char → Nat) :
    yellowPass (attach3 ps ((genYellows ps (ps.map greenMark) counts).1)) counts
      = some ((genYellows ps (ps.map greenMark) counts).2) := by
  induction ps generalizing counts with
  | nil => simp [genYellows, attach3, yellowPass]
  | cons p rest ih =>
    obtain ⟨tc, gc⟩ := p
    by_cases hp : gc = tc
    · simp only [List.map_cons, greenMark, hp, if_pos rfl]
      simp only [genYellows, if_pos rfl]
      simpa [attach3, yellowPass] using ih counts
    · simp only [List.map_cons, greenMark, if_neg hp]
      by_cases hc : counts gc > 0
      · have hne : Feedback.Gray ≠ Feedback.Green := by decide
        simp only [genYellows, if_neg hne, if_pos hc]
        have htc : ¬ tc = gc := fun hh => hp hh.symm
        simpa [attach3, yellowPass, htc, hc] using ih (decr counts gc)
      · have hne : Feedback.Gray ≠ Feedback.Green := by decide
        simp only [genYellows, if_neg hne, if_neg hc]
        simpa [attach3, yellowPass] using ih counts

lemma greenPass_genYellows (ps : List (Char × Char)) (counts cg : Char → Nat) :
    greenPass (attach3 ps ((genYellows ps (ps.map greenMark) counts).1)) cg
      = some ((genGreens ps cg).2) := by
  induction ps generalizing counts cg with
  | nil => simp [genYellows, genGreens, attach3, greenPass]
  | cons p rest ih =>
    obtain ⟨tc, gc⟩ := p
    by_cases hp : gc = tc
    · subst hp
      simp only [List.map_cons, greenMark, if_pos rfl]
      simp only [genYellows, if_pos rfl]
      simp only [genGreens, if_pos rfl]
      simpa [attach3, greenPass] using ih counts (decr cg gc)
    · simp only [List.map_cons, greenMark, if_neg hp]
      simp only [genGreens, if_neg hp]
      by_cases hc : counts gc > 0
      · have hne : Feedback.Gray ≠ Feedback.Green := by decide
        simp only [genYellows, if_neg hne, if_pos hc]
        simpa [attach3, greenPass] using ih (decr counts gc) cg
      · have hne : Feedback.Gray ≠ Feedback.Green := by decide
        simp only [genYellows, if_neg hne, if_neg hc]
        simpa [attach3, greenPass] using ih counts cg

lemma grayPass_genYellows (ps : List (Char × Char)) (pat : List Feedback)
    (counts : Char → Nat) :
    grayPass (attach3 ps ((genYellows ps pat counts).1))
      ((genYellows ps pat counts).2) = true := by
  induction ps generalizing pat counts with
  | nil =>
    cases pat with
    | nil => simp [genYellows, attach3, grayPass]
    | cons fb fbs => simp [genYellows, attach3, grayPass]
  | cons p rest ih =>
    obtain ⟨tc, gc⟩ := p
    cases pat with
    | nil => simp [genYellows, attach3, grayPass]
    | cons fb fbs =>
      by_cases hg : fb = Feedback.Green
      · simp only [genYellows, if_pos hg]
        have : ¬ (fb = Feedback.Gray ∧
            (genYellows rest fbs counts).2 gc > 0) := by
          rintro ⟨hfb, -⟩; rw [hg] at hfb; exact absurd hfb (by decide)
        simpa [attach3, grayPass, this] using ih fbs counts
      · by_cases hc : counts gc > 0
        · simp only [genYellows, if_neg hg, if_pos hc]
          have : ¬ (Feedback.Yellow = Feedback.Gray ∧
              (genYellows rest fbs (decr counts gc)).2 gc > 0) := by
            rintro ⟨hfb, -⟩; exact absurd hfb (by decide)
          simpa [attach3, grayPass, this] using ih fbs (decr counts gc)
        · simp only [genYellows, if_neg hg, if_neg hc]
          have hz : (genYellows rest fbs counts).2 gc = 0 := by
            have := genYellows_snd_le rest fbs counts gc
            omega
          have : ¬ (fb = Feedback.Gray ∧
              (genYellows rest fbs counts).2 gc > 0) := by
            rintro ⟨-, hgt⟩; omega
          simpa [attach3, grayPass, this] using ih fbs counts

/-- C1: for every pair of equal-length words T and G,
`matches(T, G, generate_feedback(T, G))` returns true. -/
theorem matches_generate_feedback (t g : List Char) (h : t.length = g.length) :
    matchesWord t g (generate_feedback t g) = true := by
  have hgf : generate_feedback t g =
      (genYellows (t.zip g) ((t.zip g).map greenMark)
        ((genGreens (t.zip g) (fun c => t.count c)).2)).1 := by
    simp only [generate_feedback]
    rw [genGreens_fst]
  have hlen : (generate_feedback t g).length = g.length := by
    rw [hgf, genYellows_fst_length _ _ _ (by simp)]
    simp [h]
  have hts : t.zip (g.zip (generate_feedback t g)) =
      attach3 (t.zip g) (generate_feedback t g) := zip_zip_eq_attach3 t g _
  have h1 := greenPass_genYellows (t.zip g)
      ((genGreens (t.zip g) (fun c => t.count c)).2) (fun c => t.count c)
  have h2 := yellowPass_genYellows (t.zip g)
      ((genGreens (t.zip g) (fun c => t.count c)).2)
  have h3 := grayPass_genYellows (t.zip g) ((t.zip g).map greenMark)
      ((genGreens (t.zip g) (fun c => t.count c)).2)
  unfold matchesWord
  rw [if_pos ⟨h, hlen.symm⟩, hts, hgf]
  simp only [h1, h2]
  exact h3

/-- Witness for C1 at a concrete input. -/
theorem matches_generate_feedback_witness :
    "apple".toList.length = "allay".toList.length ∧
      matchesWord "apple".toList "allay".toList
        (generate_feedback "apple".toList "allay".toList) = true :=
  ⟨by decide, matches_generate_feedback "apple".toList "allay".toList (by decide)⟩

lemma length_filter_le_of_imp {α : Type} (p q : α → Bool) (l : List α)
    (h : ∀ a, p a = true → q a = true) :
    (l.filter p).length ≤ (l.filter q).length := by
  induction l with
  | nil => simp
  | cons a l ih =>
    by_cases hp : p a = true
    · simp only [List.filter_cons, hp, h a hp, if_pos, List.length_cons]
      omega
    · by_cases hq : q a = true <;>
        simp only [List.filter_cons, hp, hq, if_pos, if_neg, Bool.false_eq_true,
          not_false_eq_true, List.length_cons] <;> omega

/-- C5: appending a guess (of the session word length) never increases the
number of words `filter` returns. -/
theorem filter_length_add_guess (s s' : SolverState) (g : Guess)
    (words : List (List Char)) (h : s.add_guess g = some s') :
    (s'.filter words).length ≤ (s.filter words).length := by
  unfold SolverState.add_guess at h
  by_cases hl : g.word.length = s.word_len ∧ g.feedback.length = s.word_len
  · rw [if_pos hl] at h
    obtain rfl : _ = s' := Option.some.inj h
    unfold SolverState.filter
    apply length_filter_le_of_imp
    intro w hw
    simp only [List.all_append, Bool.and_eq_true] at hw
    exact hw.1
  · rw [if_neg hl] at h
    exact absurd h (by simp)

/-- Witness for C5 at a concrete input. -/
theorem filter_length_add_guess_witness :
    demoState.add_guess demoGuess = some (SolverState.mk 5 [demoGuess]) ∧
      ((SolverState.mk 5 [demoGuess]).filter demoWords).length ≤
        (demoState.filter demoWords).length :=
  ⟨by decide,
    filter_length_add_guess demoState (SolverState.mk 5 [demoGuess]) demoGuess
      demoWords (by decide)⟩

/-- C6: adding a guess of the session word length and then popping it yields a
state whose `filter` result is identical to the original one. -/
theorem filter_add_guess_pop_guess (s s' : SolverState) (g : Guess)
    (words : List (List Char)) (h : s.add_guess g = some s') :
    s'.pop_guess.filter words = s.filter words := by
  unfold SolverState.add_guess at h
  by_cases hl : g.word.length = s.word_len ∧ g.feedback.length = s.word_len
  · rw [if_pos hl] at h
    obtain rfl : _ = s' := Option.some.inj h
    unfold SolverState.pop_guess
    rw [List.dropLast_concat]
  · rw [if_neg hl] at h
    exact absurd h (by simp)

/-- Witness for C6 at a concrete input. -/
theorem filter_add_guess_pop_guess_witness :
    demoState.add_guess demoGuess = some (SolverState.mk 5 [demoGuess]) ∧
      (SolverState.mk 5 [demoGuess]).pop_guess.filter demoWords =
        demoState.filter demoWords :=
  ⟨by decide,
    filter_add_guess_pop_guess demoState (SolverState.mk 5 [demoGuess])
      demoGuess demoWords (by decide)⟩

/-- C4: filtering the dictionary {label, cello, helot, pilot} with guess
"allot" and feedback [Absent, Displaced, Absent, Absent, Absent] leaves no
candidate (the `test_repeated_letter_gray_respects_min_count` scenario). -/
theorem filter_words_allot_empty :
    filter_words ["label".toList, "cello".toList, "helot".toList,
        "pilot".toList] "allot".toList
      [Feedback.Gray, Feedback.Yellow, Feedback.Gray, Feedback.Gray,
        Feedback.Gray] = [] := by decide

lemma char_toNat_ofNat_valid (n : Nat) (h : n < 55296) :
    (Char.ofNat n).toNat = n := by
  have hv : n.isValidChar := Or.inl h
  simp only [Char.ofNat, dif_pos hv, Char.ofNatAux, Char.toNat]
  simp [UInt32.toNat]

lemma char_eq_of_toNat_eq (c₁ c₂ : Char) (h : c₁.toNat = c₂.toNat) : c₁ = c₂ :=
  Char.ext (UInt32.ext h)

lemma toUpper_eq_iff (c u l : Char) (hu : u.toNat < 97)
    (hl : 97 ≤ l.toNat ∧ l.toNat ≤ 122) (hul : u.toNat + 32 = l.toNat) :
    c.toUpper = u ↔ (c = u ∨ c = l) := by
  unfold Char.toUpper
  by_cases hr : 97 ≤ c.toNat ∧ c.toNat ≤ 122
  · rw [if_pos ⟨hr.1, hr.2⟩]
    constructor
    · intro h
      have ht := congrArg Char.toNat h
      rw [char_toNat_ofNat_valid (c.toNat - 32) (by omega)] at ht
      right
      exact char_eq_of_toNat_eq c l (by omega)
    · rintro (rfl | rfl)
      · omega
      · have h32 : c.toNat - 32 = u.toNat := by omega
        rw [h32]
        exact char_eq_of_toNat_eq _ u
          (char_toNat_ofNat_valid u.toNat (by omega))
  · rw [if_neg (by omega)]
    constructor
    · intro h; exact Or.inl h
    · rintro (rfl | rfl)
      · rfl
      · exact absurd hl (by omega)

lemma tryFrom_eq (c : Char) :
    Feedback.tryFrom c =
      if recognizedChar c then Except.ok (symbolOf c) else Except.error c := by
  have hG := toUpper_eq_iff c 'G' 'g' (by decide) (by decide) (by decide)
  have hY := toUpper_eq_iff c 'Y' 'y' (by decide) (by decide) (by decide)
  have hX := toUpper_eq_iff c 'X' 'x' (by decide) (by decide) (by decide)
  by_cases hc : recognizedChar c = true
  · have hmem : ((((c = 'G' ∨ c = 'g') ∨ c = 'Y') ∨ c = 'y') ∨ c = 'X') ∨
        c = 'x' := by
      simpa [recognizedChar] using hc
    rcases hmem with ((((rfl | rfl) | rfl) | rfl) | rfl) | rfl <;> rfl
  · have h1 : ¬ c.toUpper = 'G' := fun h => by
      rcases hG.mp h with rfl | rfl <;> simp [recognizedChar] at hc
    have h2 : ¬ c.toUpper = 'Y' := fun h => by
      rcases hY.mp h with rfl | rfl <;> simp [recognizedChar] at hc
    have h3 : ¬ c.toUpper = 'X' := fun h => by
      rcases hX.mp h with rfl | rfl <;> simp [recognizedChar] at hc
    rw [if_neg hc]
    unfold Feedback.tryFrom
    split
    next heq => exact absurd heq h1
    next heq => exact absurd heq h2
    next heq => exact absurd heq h3
    next => rfl

/-- C8: `parse_pattern` succeeds exactly when every character is G, Y or X in
either case, mapping G to Exact, Y to Displaced and X to Absent; otherwise it
fails with the first unrecognized character. -/
theorem parse_pattern_spec (s : List Char) :
    parse_pattern s =
      match s.find? (fun c => !(recognizedChar c)) with
      | none => Except.ok (s.map symbolOf)
      | some c => Except.error c := by
  induction s with
  | nil => rfl
  | cons c rest ih =>
    simp only [parse_pattern, tryFrom_eq]
    by_cases hc : recognizedChar c = true
    · rw [if_pos hc, List.find?_cons_of_neg _ (by simp [hc])]
      cases hf : rest.find? (fun x => !(recognizedChar x)) with
      | none =>
        rw [hf] at ih
        simp only [ih, List.map_cons]
      | some b =>
        rw [hf] at ih
        simp only [ih]
    · rw [if_neg hc,
        List.find?_cons_of_pos _ (by simp [Bool.not_eq_true] at hc ⊢; exact hc)]

/-- C2 counterexample: on the single candidate "aa" the code scores 2 (the
letter 'a' occurs twice across the pool), while the claim's distinct-candidate
coverage formula yields 1. -/
theorem score_and_sort_counterexample :
    score_and_sort [['a', 'a']] [] = [(['a', 'a'], 2)] ∧
      claimScore [['a', 'a']] [] ['a', 'a'] = 1 := by
  constructor
  · show List.mergeSort _ _ = _
    rw [show ([['a', 'a']].map fun w =>
        (w, (w.eraseDups.map (buildFreq [['a', 'a']])).sum +
          if w ∈ ([] : List (List Char)) then 10 else 0)) =
        [(['a', 'a'], 2)] from rfl]
    simp [List.mergeSort]
  · rfl

lemma buildFreq_inner (w : List Char) (f : Char → Nat) (c : Char) :
    (w.foldl (fun f' c' => incr f' c') f) c = f c + w.count c := by
  induction w generalizing f with
  | nil => simp
  | cons a w' ih =>
    rw [List.foldl_cons, ih, List.count_cons]
    by_cases hx : c = a
    · simp only [incr, if_pos hx, hx, beq_self_eq_true, if_pos]
      omega
    · have : ¬ (a == c) = true := by simpa [beq_iff_eq] using fun h => hx h.symm
      simp only [incr, if_neg hx, this, Bool.false_eq_true, if_neg, if_false]
      omega

lemma buildFreq_eq_totalOccurrences (words : List (List Char)) (c : Char) :
    buildFreq words c = totalOccurrences words c := by
  unfold buildFreq totalOccurrences
  suffices h : ∀ f : Char → Nat,
      (words.foldl (fun f w => w.foldl (fun f' c' => incr f' c') f) f) c =
        f c + (words.map fun w => w.count c).sum by
    simpa using h (fun _ => 0)
  induction words with
  | nil => intro f; simp
  | cons w ws ih =>
    intro f
    rw [List.foldl_cons, ih, buildFreq_inner]
    simp [Nat.add_assoc]

/-- C2 amended: `score_and_sort` returns, up to the descending stable sort,
exactly one `(word, score)` pair per candidate, where the score sums the
letter's total occurrence count across all candidates (with multiplicity)
over the candidate's distinct letters, plus 10 for plausible solutions. -/
theorem score_and_sort_scores (words solutions : List (List Char)) :
    (score_and_sort words solutions).Perm
      (words.map fun w => (w, amendedScore words solutions w)) := by
  unfold score_and_sort
  have hmap : (words.map fun w =>
      (w, (w.eraseDups.map (buildFreq words)).sum +
        if w ∈ solutions then 10 else 0)) =
      words.map fun w => (w, amendedScore words solutions w) := by
    apply List.map_congr_left
    intro w _
    have : w.eraseDups.map (buildFreq words) =
        w.eraseDups.map (totalOccurrences words) :=
      List.map_congr_left fun c _ => buildFreq_eq_totalOccurrences words c
    simp [amendedScore, this]
  rw [← hmap]
  exact List.mergeSort_perm _ _

/-- C7: with at most one remaining candidate the reported entropy is exactly
zero (the code short-circuits before any floating-point sum). -/
theorem pool_stats_entropy_zero (all_words filtered : List (List Char))
    (h : filtered.length ≤ 1) :
    (compute_solution_pool_stats all_words filtered).entropy = 0 := by
  simp only [compute_solution_pool_stats, if_pos h]

/-- Witness for C7 at a concrete input. -/
theorem pool_stats_entropy_zero_witness :
    (["apple".toList] : List (List Char)).length ≤ 1 ∧
      (compute_solution_pool_stats
        ["apple".toList, "angle".toList, "ample".toList]
        ["apple".toList]).entropy = 0 :=
  ⟨by decide,
    pool_stats_entropy_zero
      ["apple".toList, "angle".toList, "ample".toList]
      ["apple".toList] (by decide)⟩

lemma guessLoop_gy (l : List (Char × Feedback)) (pos : Nat) (word : List Char)
    (gr : List (Char × Nat × List Char))
    (ye : List (Char × List Nat × List Char)) (gy : Char → Nat) (c : Char) :
    (guessLoop l pos word gr ye gy).2.2 c =
      gy c + l.countP (fun t => decide (t.1 = c) && decide (t.2 ≠ Feedback.Gray)) := by
  induction l generalizing pos gr ye gy with
  | nil => simp [guessLoop]
  | cons t rest ih =>
    obtain ⟨a, fb⟩ := t
    cases fb with
    | Green =>
      rw [show guessLoop ((a, Feedback.Green) :: rest) pos word gr ye gy =
        guessLoop rest (pos + 1) word (gr ++ [(a, pos, word)]) ye (incr gy a)
        from rfl, ih]
      by_cases hx : a = c
      · subst hx
        simp [incr, List.countP_cons]
        omega
      · have hx' : ¬ c = a := fun hh => hx hh.symm
        simp [incr, List.countP_cons, hx, hx']
    | Yellow =>
      rw [show guessLoop ((a, Feedback.Yellow) :: rest) pos word gr ye gy =
        guessLoop rest (pos + 1) word gr (addYellow ye a pos word) (incr gy a)
        from rfl, ih]
      by_cases hx : a = c
      · subst hx
        simp [incr, List.countP_cons]
        omega
      · have hx' : ¬ c = a := fun hh => hx hh.symm
        simp [incr, List.countP_cons, hx, hx']
    | Gray =>
      rw [show guessLoop ((a, Feedback.Gray) :: rest) pos word gr ye gy =
        guessLoop rest (pos + 1) word gr ye gy from rfl, ih]
      simp [List.countP_cons]

lemma processGuess_min_counts (acc : ConstraintSummary) (g : Guess) (c : Char) :
    (processGuess acc g).min_counts c = max (acc.min_counts c) (gyCount g c) := by
  unfold processGuess
  simp only []
  rw [guessLoop_gy]
  simp [gyCount]

lemma foldl_processGuess_min_counts (gs : List Guess) (acc : ConstraintSummary)
    (c : Char) :
    ((gs.foldl processGuess acc).min_counts c) =
      (gs.map fun g => gyCount g c).foldl max (acc.min_counts c) := by
  induction gs generalizing acc with
  | nil => simp
  | cons g gs' ih =>
    rw [List.foldl_cons, ih, List.map_cons, List.foldl_cons,
      processGuess_min_counts]

lemma le_foldl_max (l : List Nat) (init : Nat) : init ≤ l.foldl max init := by
  induction l generalizing init with
  | nil => simp
  | cons a l' ih => exact le_trans (Nat.le_max_left init a) (ih (max init a))

lemma le_foldl_max_of_mem {l : List Nat} {a : Nat} (h : a ∈ l) (init : Nat) :
    a ≤ l.foldl max init := by
  induction l generalizing init with
  | nil => exact absurd h (List.not_mem_nil a)
  | cons b l' ih =>
    rcases List.mem_cons.mp h with rfl | hmem
    · exact le_trans (Nat.le_max_right init a) (le_foldl_max l' (max init a))
    · exact ih hmem (max init b)

/-- C9: the `min_counts` lower bound `compute_constraint_summary` reports for
a letter is the maximum, over the individual guesses of the history, of that
letter's Exact+Displaced occurrence count within the single guess; counts are
never summed across guesses, so appending a guess already in the history
leaves the bound unchanged. -/
theorem constraint_summary_min_counts (s : SolverState) (g : Guess) (c : Char) :
    (compute_constraint_summary s).min_counts c =
      (s.guesses.map fun g' => gyCount g' c).foldl max 0 ∧
    (g ∈ s.guesses →
      (compute_constraint_summary
          (SolverState.mk s.word_len (s.guesses ++ [g]))).min_counts c =
        (compute_constraint_summary s).min_counts c) := by
  have hbase : ∀ gs : List Guess,
      (compute_constraint_summary (SolverState.mk s.word_len gs)).min_counts c =
        (gs.map fun g' => gyCount g' c).foldl max 0 := by
    intro gs
    unfold compute_constraint_summary
    rw [foldl_processGuess_min_counts]
  constructor
  · unfold compute_constraint_summary
    rw [foldl_processGuess_min_counts]
  · intro hmem
    rw [hbase (s.guesses ++ [g])]
    unfold compute_constraint_summary
    rw [foldl_processGuess_min_counts]
    rw [List.map_append, List.foldl_append]
    simp only [List.map_cons, List.map_nil, List.foldl_cons, List.foldl_nil]
    have hle : gyCount g c ≤ (s.guesses.map fun g' => gyCount g' c).foldl max 0 :=
      le_foldl_max_of_mem (List.mem_map_of_mem (fun g' => gyCount g' c) hmem) 0
    omega

/-- Witness for C9 at a concrete input. -/
theorem constraint_summary_min_counts_witness :
    demoGuess ∈ (SolverState.mk 5 [demoGuess]).guesses ∧
      (compute_constraint_summary
          (SolverState.mk 5 ([demoGuess] ++ [demoGuess]))).min_counts 'd' =
        (compute_constraint_summary (SolverState.mk 5 [demoGuess])).min_counts 'd' :=
  ⟨by decide,
    (constraint_summary_min_counts (SolverState.mk 5 [demoGuess]) demoGuess 'd').2
      (by decide)⟩

lemma greenPass_isSome_iff (ts : List (Char × Char × Feedback))
    (counts : Char → Nat) :
    (greenPass ts counts).isSome = true ↔
      ∀ t ∈ ts, t.2.2 = Feedback.Green → t.1 = t.2.1 := by
  induction ts generalizing counts with
  | nil => simp [greenPass]
  | cons t rest ih =>
    obtain ⟨wc, gc, fb⟩ := t
    by_cases hg : fb = Feedback.Green
    · subst hg
      by_cases hne : wc = gc
      · simp [greenPass, hne, ih, List.forall_mem_cons]
      · simp [greenPass, hne, List.forall_mem_cons]
    · simp [greenPass, hg, ih, List.forall_mem_cons]

lemma greensOf_cons (wc gc : Char) (fb : Feedback)
    (rest : List (Char × Char × Feedback)) (x : Char) :
    greensOf ((wc, gc, fb) :: rest) x =
      greensOf rest x + (if fb = Feedback.Green ∧ gc = x then 1 else 0) := by
  simp only [greensOf, List.countP_cons]
  by_cases h1 : fb = Feedback.Green <;> by_cases h2 : gc = x <;>
    simp [h1, h2]

lemma yellowsOf_cons (wc gc : Char) (fb : Feedback)
    (rest : List (Char × Char × Feedback)) (x : Char) :
    yellowsOf ((wc, gc, fb) :: rest) x =
      yellowsOf rest x + (if fb = Feedback.Yellow ∧ gc = x then 1 else 0) := by
  simp only [yellowsOf, List.countP_cons]
  by_cases h1 : fb = Feedback.Yellow <;> by_cases h2 : gc = x <;>
    simp [h1, h2]

lemma greenPass_eq_some (ts : List (Char × Char × Feedback))
    (counts counts' : Char → Nat) (x : Char) :
    greenPass ts counts = some counts' →
      counts' x = counts x - greensOf ts x := by
  induction ts generalizing counts with
  | nil =>
    intro h
    simp only [greenPass, Option.some.injEq] at h
    subst h
    simp [greensOf]
  | cons t rest ih =>
    obtain ⟨wc, gc, fb⟩ := t
    intro h
    by_cases hg : fb = Feedback.Green
    · subst hg
      by_cases hne : wc = gc
      · rw [greenPass, if_pos rfl, if_neg (not_not_intro hne)] at h
        rw [ih (decr counts gc) h, greensOf_cons]
        by_cases hx : gc = x
        · rw [if_pos ⟨rfl, hx⟩]
          have hd : decr counts gc x = counts x - 1 := by
            simp [decr, hx.symm]
          rw [hd]
          omega
        · rw [if_neg (fun hh => hx hh.2)]
          have hx' : ¬ x = gc := fun hh => hx hh.symm
          have hd : decr counts gc x = counts x := by simp [decr, hx']
          rw [hd]
          omega
      · rw [greenPass, if_pos rfl, if_pos hne] at h
        exact absurd h (by simp)
    · rw [greenPass, if_neg hg] at h
      rw [ih counts h, greensOf_cons, if_neg (fun hh => hg hh.1)]
      omega

lemma yellowPass_isSome_iff (ts : List (Char × Char × Feedback))
    (counts : Char → Nat) :
    (yellowPass ts counts).isSome = true ↔
      ((∀ t ∈ ts, t.2.2 = Feedback.Yellow → ¬ t.1 = t.2.1) ∧
        ∀ x, yellowsOf ts x ≤ counts x) := by
  induction ts generalizing counts with
  | nil => simp [yellowPass, yellowsOf]
  | cons t rest ih =>
    obtain ⟨wc, gc, fb⟩ := t
    by_cases hy : fb = Feedback.Yellow
    · subst hy
      by_cases hne : wc = gc
      · have hred : yellowPass ((wc, gc, Feedback.Yellow) :: rest) counts =
            none := by
          rw [yellowPass, if_pos rfl, if_pos hne]
        rw [hred]
        simp only [Option.isSome_none, Bool.false_eq_true, false_iff]
        rintro ⟨hall, -⟩
        exact hall _ (List.mem_cons_self _ _) rfl hne
      · by_cases hc : counts gc > 0
        · rw [yellowPass, if_pos rfl, if_neg hne, if_pos hc, ih]
          constructor
          · rintro ⟨hner, hcnt⟩
            refine ⟨?_, ?_⟩
            · intro t ht
              rcases List.mem_cons.mp ht with rfl | hmem
              · intro _; exact hne
              · exact hner t hmem
            · intro x
              have hx2 := hcnt x
              by_cases hx : gc = x
              · subst hx
                rw [yellowsOf_cons, if_pos ⟨rfl, rfl⟩]
                have hd : decr counts gc gc = counts gc - 1 := by simp [decr]
                rw [hd] at hx2
                omega
              · rw [yellowsOf_cons, if_neg (fun hh => hx hh.2)]
                have hx' : ¬ x = gc := fun hh => hx hh.symm
                have hd : decr counts gc x = counts x := by simp [decr, hx']
                rw [hd] at hx2
                omega
          · rintro ⟨hall, hcnt⟩
            refine ⟨fun t ht => hall t (List.mem_cons_of_mem _ ht), ?_⟩
            intro x
            have hx2 := hcnt x
            by_cases hx : gc = x
            · subst hx
              rw [yellowsOf_cons, if_pos ⟨rfl, rfl⟩] at hx2
              have hd : decr counts gc gc = counts gc - 1 := by simp [decr]
              rw [hd]
              omega
            · rw [yellowsOf_cons, if_neg (fun hh => hx hh.2)] at hx2
              have hx' : ¬ x = gc := fun hh => hx hh.symm
              have hd : decr counts gc x = counts x := by simp [decr, hx']
              rw [hd]
              omega
        · have hred : yellowPass ((wc, gc, Feedback.Yellow) :: rest) counts =
              none := by
            rw [yellowPass, if_pos rfl, if_neg hne, if_neg hc]
          rw [hred]
          simp only [Option.isSome_none, Bool.false_eq_true, false_iff]
          rintro ⟨-, hcnt⟩
          have h1 := hcnt gc
          rw [yellowsOf_cons, if_pos ⟨rfl, rfl⟩] at h1
          omega
    · rw [yellowPass, if_neg hy, ih]
      constructor
      · rintro ⟨hner, hcnt⟩
        refine ⟨?_, ?_⟩
        · intro t ht
          rcases List.mem_cons.mp ht with rfl | hmem
          · intro hh; exact absurd hh hy
          · exact hner t hmem
        · intro x
          have h1 := hcnt x
          rw [yellowsOf_cons, if_neg (fun hh => hy hh.1)]
          omega
      · rintro ⟨hall, hcnt⟩
        refine ⟨fun t ht => hall t (List.mem_cons_of_mem _ ht), ?_⟩
        intro x
        have h1 := hcnt x
        rw [yellowsOf_cons, if_neg (fun hh => hy hh.1)] at h1
        omega

lemma yellowPass_eq_some (ts : List (Char × Char × Feedback))
    (counts counts' : Char → Nat) (x : Char) :
    yellowPass ts counts = some counts' →
      counts' x = counts x - yellowsOf ts x := by
  induction ts generalizing counts with
  | nil =>
    intro h
    simp only [yellowPass, Option.some.injEq] at h
    subst h
    simp [yellowsOf]
  | cons t rest ih =>
    obtain ⟨wc, gc, fb⟩ := t
    intro h
    by_cases hy : fb = Feedback.Yellow
    · subst hy
      by_cases hne : wc = gc
      · rw [yellowPass, if_pos rfl, if_pos hne] at h
        exact absurd h (by simp)
      · by_cases hc : counts gc > 0
        · rw [yellowPass, if_pos rfl, if_neg hne, if_pos hc] at h
          rw [ih (decr counts gc) h, yellowsOf_cons]
          by_cases hx : gc = x
          · rw [if_pos ⟨rfl, hx⟩]
            have hd : decr counts gc x = counts x - 1 := by
              simp [decr, hx.symm]
            rw [hd]
            have hcx : counts x > 0 := hx ▸ hc
            omega
          · rw [if_neg (fun hh => hx hh.2)]
            have hx' : ¬ x = gc := fun hh => hx hh.symm
            have hd : decr counts gc x = counts x := by simp [decr, hx']
            rw [hd]
            omega
        · rw [yellowPass, if_pos rfl, if_neg hne, if_neg hc] at h
          exact absurd h (by simp)
    · rw [yellowPass, if_neg hy] at h
      rw [ih counts h, yellowsOf_cons, if_neg (fun hh => hy hh.1)]
      omega

lemma grayPass_eq_true_iff (ts : List (Char × Char × Feedback))
    (counts : Char → Nat) :
    grayPass ts counts = true ↔
      ∀ t ∈ ts, t.2.2 = Feedback.Gray → counts t.2.1 = 0 := by
  induction ts with
  | nil => simp [grayPass]
  | cons t rest ih =>
    obtain ⟨wc, gc, fb⟩ := t
    by_cases hg : fb = Feedback.Gray
    · subst hg
      by_cases hc : counts gc > 0
      · have hcond : Feedback.Gray = Feedback.Gray ∧ counts gc > 0 := ⟨rfl, hc⟩
        have hred : grayPass ((wc, gc, Feedback.Gray) :: rest) counts = false := by
          rw [grayPass, if_pos hcond]
        rw [hred]
        simp only [Bool.false_eq_true, false_iff]
        rintro hall
        have h1 := hall _ (List.mem_cons_self _ _) rfl
        simp only [] at h1
        omega
      · have h0 : counts gc = 0 := by omega
        have : ¬ (Feedback.Gray = Feedback.Gray ∧ counts gc > 0) := by
          rintro ⟨-, hgt⟩; omega
        rw [grayPass, if_neg this, ih]
        simp [List.forall_mem_cons, h0]
    · have : ¬ (fb = Feedback.Gray ∧ counts gc > 0) := by
        rintro ⟨hfb, -⟩; exact hg hfb
      rw [grayPass, if_neg this, ih]
      simp [List.forall_mem_cons, hg]

lemma zip_map_snd {α β : Type} (w : List α) (l : List β)
    (h : l.length ≤ w.length) : (w.zip l).map Prod.snd = l := by
  induction w generalizing l with
  | nil =>
    cases l with
    | nil => simp
    | cons b l' => simp at h
  | cons a w' ih =>
    cases l with
    | nil => simp
    | cons b l' =>
      simp only [List.zip_cons_cons, List.map_cons, List.cons.injEq, true_and]
      exact ih l' (by simpa using h)

lemma zip_countP_fst_le (w : List Char) (l : List (Char × Feedback)) (c : Char)
    (q : Char × Char × Feedback → Bool) :
    (w.zip l).countP (fun t => q t && decide (t.1 = c)) ≤ w.count c := by
  induction w generalizing l with
  | nil => simp
  | cons a w' ih =>
    cases l with
    | nil => simp
    | cons b l' =>
      rw [List.zip_cons_cons, List.countP_cons, List.count_cons]
      have hrec := ih l'
      have hif : (if (q (a, b) && decide ((a, b).1 = c)) = true then 1 else 0) ≤
          (if (a == c) = true then 1 else 0) := by
        by_cases hx : a = c
        · have h2 : (a == c) = true := beq_iff_eq.mpr hx
          rw [if_pos h2]
          split <;> omega
        · have h1 : (q (a, b) && decide ((a, b).1 = c)) = false := by
            simp [hx]
          have h2 : ¬ ((a == c) = true) := by simp [hx]
          rw [if_neg h2, h1]
          simp
      omega

lemma countP_req_decomp (l : List (Char × Feedback)) (c : Char) :
    l.countP (fun q => decide (q.1 = c) && decide (q.2 ≠ Feedback.Gray)) =
      l.countP (fun q => decide (q.2 = Feedback.Green) && decide (q.1 = c)) +
        l.countP (fun q => decide (q.2 = Feedback.Yellow) && decide (q.1 = c)) := by
  induction l with
  | nil => simp
  | cons q rest ih =>
    obtain ⟨a, fb⟩ := q
    rw [List.countP_cons, List.countP_cons, List.countP_cons, ih]
    have hsum : (if (decide ((a, fb).1 = c) &&
          decide ((a, fb).2 ≠ Feedback.Gray)) = true then 1 else 0) =
        (if (decide ((a, fb).2 = Feedback.Green) &&
          decide ((a, fb).1 = c)) = true then 1 else 0) +
        (if (decide ((a, fb).2 = Feedback.Yellow) &&
          decide ((a, fb).1 = c)) = true then 1 else 0) := by
      cases fb <;> by_cases hx : a = c <;> simp [hx]
    omega

/-- C3 counterexample: candidate "bba", guess "aab", feedback all Displaced —
three equal-length sequences.  The claim's conditions hold (each Displaced
position differs and the candidate contains the letter somewhere; no Absent
marks), yet `matches` returns false: the second Displaced 'a' finds the
candidate's single 'a' already consumed. -/
theorem matches_claim_counterexample :
    "bba".toList.length = "aab".toList.length ∧
      "aab".toList.length =
        ([Feedback.Yellow, Feedback.Yellow, Feedback.Yellow] :
          List Feedback).length ∧
      claimMatches "bba".toList "aab".toList
        [Feedback.Yellow, Feedback.Yellow, Feedback.Yellow] ∧
      matchesWord "bba".toList "aab".toList
        [Feedback.Yellow, Feedback.Yellow, Feedback.Yellow] = false := by
  refine ⟨by decide, by decide, ?_, by decide⟩
  refine ⟨by decide, by decide, by decide⟩

/-- C3 amended: for equal-length inputs, `matches` is true iff Exact positions
agree, Displaced positions differ, every letter's Exact+Displaced count within
the guess does not exceed the candidate's occurrences of it, and every letter
with an Absent mark occurs in the candidate at most that Exact+Displaced
count. -/
theorem matchesWord_iff_amended (w g : List Char) (p : List Feedback)
    (hwg : w.length = g.length) (hgp : g.length = p.length) :
    matchesWord w g p = true ↔
      ((∀ t ∈ w.zip (g.zip p), t.2.2 = Feedback.Green → t.1 = t.2.1) ∧
        (∀ t ∈ w.zip (g.zip p), t.2.2 = Feedback.Yellow → ¬ t.1 = t.2.1) ∧
        (∀ q ∈ g.zip p, reqCount g p q.1 ≤ w.count q.1) ∧
        (∀ q ∈ g.zip p, q.2 = Feedback.Gray →
          w.count q.1 ≤ reqCount g p q.1)) := by
  have hlen : (g.zip p).length ≤ w.length := by
    rw [List.length_zip]
    omega
  have hsnd : (w.zip (g.zip p)).map Prod.snd = g.zip p := zip_map_snd _ _ hlen
  have hGsnd : ∀ x, greensOf (w.zip (g.zip p)) x =
      (g.zip p).countP
        (fun qq => decide (qq.2 = Feedback.Green) && decide (qq.1 = x)) := by
    intro x
    have h1 := List.countP_map
      (fun qq : Char × Feedback =>
        decide (qq.2 = Feedback.Green) && decide (qq.1 = x))
      Prod.snd (w.zip (g.zip p))
    rw [hsnd] at h1
    rw [h1]
    rfl
  have hYsnd : ∀ x, yellowsOf (w.zip (g.zip p)) x =
      (g.zip p).countP
        (fun qq => decide (qq.2 = Feedback.Yellow) && decide (qq.1 = x)) := by
    intro x
    have h1 := List.countP_map
      (fun qq : Char × Feedback =>
        decide (qq.2 = Feedback.Yellow) && decide (qq.1 = x))
      Prod.snd (w.zip (g.zip p))
    rw [hsnd] at h1
    rw [h1]
    rfl
  have hreq : ∀ x, reqCount g p x =
      greensOf (w.zip (g.zip p)) x + yellowsOf (w.zip (g.zip p)) x := by
    intro x
    rw [reqCount, countP_req_decomp, hGsnd, hYsnd]
  have hbody : matchesWord w g p =
      (match greenPass (w.zip (g.zip p)) (fun c => w.count c) with
       | none => false
       | some c1 =>
         match yellowPass (w.zip (g.zip p)) c1 with
         | none => false
         | some c2 => grayPass (w.zip (g.zip p)) c2) := by
    unfold matchesWord
    rw [if_pos ⟨hwg, hgp⟩]
  rw [hbody]
  cases hg1 : greenPass (w.zip (g.zip p)) (fun c => w.count c) with
  | none =>
    have hiff := greenPass_isSome_iff (w.zip (g.zip p)) (fun c => w.count c)
    rw [hg1] at hiff
    have hnot : ¬ ∀ t ∈ w.zip (g.zip p),
        t.2.2 = Feedback.Green → t.1 = t.2.1 := by simpa using hiff
    show false = true ↔ _
    simp only [Bool.false_eq_true, false_iff]
    rintro ⟨h1, -, -, -⟩
    exact hnot h1
  | some c1 =>
    show (match yellowPass (w.zip (g.zip p)) c1 with
          | none => false
          | some c2 => grayPass (w.zip (g.zip p)) c2) = true ↔ _
    have hiffg := greenPass_isSome_iff (w.zip (g.zip p)) (fun c => w.count c)
    rw [hg1] at hiffg
    have hgreens : ∀ t ∈ w.zip (g.zip p),
        t.2.2 = Feedback.Green → t.1 = t.2.1 := by simpa using hiffg
    have hc1 : ∀ x, c1 x = w.count x - greensOf (w.zip (g.zip p)) x :=
      fun x => greenPass_eq_some _ _ _ x hg1
    have hGle : ∀ x, greensOf (w.zip (g.zip p)) x ≤ w.count x := by
      intro x
      have hcong : greensOf (w.zip (g.zip p)) x =
          (w.zip (g.zip p)).countP
            (fun t => decide (t.2.2 = Feedback.Green) && decide (t.1 = x)) := by
        apply List.countP_congr
        intro t ht
        by_cases hgt : t.2.2 = Feedback.Green
        · have heq := hgreens t ht hgt
          rw [heq]
        · simp [hgt]
      rw [hcong]
      exact zip_countP_fst_le w (g.zip p) x
        (fun t => decide (t.2.2 = Feedback.Green))
    have hbound : (∀ q ∈ g.zip p, reqCount g p q.1 ≤ w.count q.1) ↔
        (∀ x, yellowsOf (w.zip (g.zip p)) x ≤ c1 x) := by
      constructor
      · intro hle x
        rw [hc1 x]
        by_cases hy0 : yellowsOf (w.zip (g.zip p)) x = 0
        · omega
        · have hpos : 0 < yellowsOf (w.zip (g.zip p)) x :=
            Nat.pos_of_ne_zero hy0
          rw [hYsnd x] at hpos
          obtain ⟨qq, hqmem, hqpred⟩ := List.countP_pos_iff.mp hpos
          have hx1 : qq.1 = x := by
            have h2 := (Bool.and_eq_true _ _).mp hqpred
            simpa using h2.2
          have h3 := hle qq hqmem
          rw [hx1, hreq x] at h3
          have h4 := hGle x
          omega
      · intro hcnt qq hqmem
        have h1 := hcnt qq.1
        rw [hc1 qq.1] at h1
        rw [hreq qq.1]
        have h2 := hGle qq.1
        omega
    cases hy1 : yellowPass (w.zip (g.zip p)) c1 with
    | none =>
      have hiffy := yellowPass_isSome_iff (w.zip (g.zip p)) c1
      rw [hy1] at hiffy
      have hnot : ¬ ((∀ t ∈ w.zip (g.zip p),
          t.2.2 = Feedback.Yellow → ¬ t.1 = t.2.1) ∧
          ∀ x, yellowsOf (w.zip (g.zip p)) x ≤ c1 x) := by simpa using hiffy
      show false = true ↔ _
      simp only [Bool.false_eq_true, false_iff]
      rintro ⟨-, h2, h3, -⟩
      exact hnot ⟨h2, hbound.mp h3⟩
    | some c2 =>
      have hiffy := yellowPass_isSome_iff (w.zip (g.zip p)) c1
      rw [hy1] at hiffy
      have hyok : (∀ t ∈ w.zip (g.zip p),
          t.2.2 = Feedback.Yellow → ¬ t.1 = t.2.1) ∧
          ∀ x, yellowsOf (w.zip (g.zip p)) x ≤ c1 x := by simpa using hiffy
      have hc2 : ∀ x, c2 x = c1 x - yellowsOf (w.zip (g.zip p)) x :=
        fun x => yellowPass_eq_some _ _ _ x hy1
      show grayPass (w.zip (g.zip p)) c2 = true ↔ _
      rw [grayPass_eq_true_iff]
      constructor
      · intro hgray
        refine ⟨hgreens, hyok.1, hbound.mpr hyok.2, ?_⟩
        intro qq hqmem hqgray
        have hmem2 : qq ∈ (w.zip (g.zip p)).map Prod.snd := by
          rw [hsnd]
          exact hqmem
        obtain ⟨t, htmem, ht2⟩ := List.mem_map.mp hmem2
        have h0 := hgray t htmem (by rw [ht2]; exact hqgray)
        rw [hc2, hc1] at h0
        have hq1 : t.2.1 = qq.1 := by rw [ht2]
        rw [hq1] at h0
        rw [hreq qq.1]
        have h4 := hGle qq.1
        omega
      · rintro ⟨-, -, h3, h4⟩
        intro t htmem htgray
        rw [hc2, hc1]
        have hqmem : t.2 ∈ g.zip p := by
          rw [← hsnd]
          exact List.mem_map_of_mem Prod.snd htmem
        have h5 := h4 t.2 hqmem htgray
        rw [hreq t.2.1] at h5
        omega

/-- Witness for the amended C3 at a concrete input. -/
theorem matchesWord_iff_amended_witness :
    matchesWord "abc".toList "abc".toList
      [Feedback.Green, Feedback.Green, Feedback.Green] = true :=
  (matchesWord_iff_amended "abc".toList "abc".toList
    [Feedback.Green, Feedback.Green, Feedback.Green]
    (by decide) (by decide)).mpr (by decide)

lemma greenPassChecked_eq (ts : List (Char × Char × Feedback))
    (counts : Char → Nat)
    (hinv : ∀ c, ts.countP
      (fun t => decide (t.2.2 = Feedback.Green) && decide (t.1 = c)) ≤
        counts c) :
    greenPassChecked ts counts =
      match greenPass ts counts with
      | none => MatchResult.fail
      | some c' => MatchResult.ok c' := by
  induction ts generalizing counts with
  | nil => rfl
  | cons t rest ih =>
    obtain ⟨wc, gc, fb⟩ := t
    by_cases hg : fb = Feedback.Green
    · subst hg
      by_cases hne : wc = gc
      · have hpos : 0 < counts gc := by
          have h1 := hinv gc
          rw [List.countP_cons] at h1
          have hhead : (if (decide ((wc, gc, Feedback.Green).2.2 =
                Feedback.Green) &&
              decide ((wc, gc, Feedback.Green).1 = gc)) = true
              then 1 else 0) = 1 := by
            simp [hne]
          rw [hhead] at h1
          omega
        have hnz : ¬ counts gc = 0 := by omega
        rw [greenPassChecked, if_pos rfl, if_neg (not_not_intro hne),
          if_neg hnz]
        rw [greenPass, if_pos rfl, if_neg (not_not_intro hne)]
        apply ih
        intro c
        have h1 := hinv c
        rw [List.countP_cons] at h1
        by_cases hx : gc = c
        · have hd : decr counts gc c = counts c - 1 := by simp [decr, hx.symm]
          rw [hd]
          have hhead : (if ((decide ((wc, gc, Feedback.Green).2.2 =
                Feedback.Green) &&
              decide ((wc, gc, Feedback.Green).1 = c))) = true
              then 1 else 0) = 1 := by
            simp [hne, hx, hne.symm ▸ hx]
          rw [hhead] at h1
          omega
        · have hx' : ¬ c = gc := fun hh => hx hh.symm
          have hd : decr counts gc c = counts c := by simp [decr, hx']
          rw [hd]
          omega
      · rw [greenPassChecked, if_pos rfl, if_pos hne]
        rw [greenPass, if_pos rfl, if_pos hne]
    · rw [greenPassChecked, if_neg hg, greenPass, if_neg hg]
      apply ih
      intro c
      have h1 := hinv c
      rw [List.countP_cons] at h1
      omega

/-- C10: `matches` is total — `matchesChecked`, which makes the potentially
panicking operation explicit, always returns `ok` with the value of
`matchesWord`, and whenever the three lengths are not all equal the result is
false. -/
theorem matchesWord_total (w g : List Char) (p : List Feedback) :
    matchesChecked w g p = MatchResult.ok (matchesWord w g p) ∧
      (¬ (w.length = g.length ∧ g.length = p.length) →
        matchesWord w g p = false) := by
  constructor
  · by_cases hlen : w.length = g.length ∧ g.length = p.length
    · have hck := greenPassChecked_eq (w.zip (g.zip p)) (fun c => w.count c)
        (fun c => zip_countP_fst_le w (g.zip p) c
          (fun t => decide (t.2.2 = Feedback.Green)))
      unfold matchesChecked matchesWord
      rw [if_pos hlen, if_pos hlen]
      show (match greenPassChecked (w.zip (g.zip p)) (fun c => w.count c) with
            | MatchResult.crash => MatchResult.crash
            | MatchResult.fail => MatchResult.ok false
            | MatchResult.ok c1 =>
              match yellowPass (w.zip (g.zip p)) c1 with
              | none => MatchResult.ok false
              | some c2 => MatchResult.ok (grayPass (w.zip (g.zip p)) c2)) =
          MatchResult.ok
            (match greenPass (w.zip (g.zip p)) (fun c => w.count c) with
             | none => false
             | some c1 =>
               match yellowPass (w.zip (g.zip p)) c1 with
               | none => false
               | some c2 => grayPass (w.zip (g.zip p)) c2)
      rw [hck]
      cases greenPass (w.zip (g.zip p)) (fun c => w.count c) with
      | none => rfl
      | some c1 =>
        show (match yellowPass (w.zip (g.zip p)) c1 with
              | none => MatchResult.ok false
              | some c2 =>
                MatchResult.ok (grayPass (w.zip (g.zip p)) c2)) =
            MatchResult.ok (match yellowPass (w.zip (g.zip p)) c1 with
              | none => false
              | some c2 => grayPass (w.zip (g.zip p)) c2)
        cases yellowPass (w.zip (g.zip p)) c1 with
        | none => rfl
        | some c2 => rfl
    · unfold matchesChecked matchesWord
      rw [if_neg hlen, if_neg hlen]
  · intro hlen
    unfold matchesWord
    rw [if_neg hlen]

/-- Witness for C10 at a concrete length-mismatched input. -/
theorem matchesWord_total_witness :
    ¬ ("ab".toList.length = "abc".toList.length ∧
        "abc".toList.length = ([] : List Feedback).length) ∧
      matchesWord "ab".toList "abc".toList [] = false :=
  ⟨by decide, (matchesWord_total "ab".toList "abc".toList []).2 (by decide)⟩
